import Mathlib

/-!
# Verification of the tweeks-sync extraction and reconciliation core

A shallow embedding of the core logic of `tweeks_sync.py`:

* `slugify` — filename slug derivation (lines 171–176);
* `parse_userscript_metadata` — userscript header parsing (lines 179–203);
* `parse_scripts_from_text` — the brace-balanced JSON-record scanner
  (lines 254–311);
* `export_userscripts` — the export reconciler and manifest merge
  (lines 339–423).

Python text is modelled as `List Char`.  Python `dict`s are modelled as
association lists with in-place update / append-at-end semantics, matching
insertion-ordered `dict`s.  The Python standard library pieces the code
relies on (`re` with the four concrete patterns, `json.loads`/`json.dump`,
`str` methods) are modelled directly for the concrete patterns involved,
restricted to ASCII where Python is Unicode-aware.  Fallible operations
(paths on which the Python code would raise) return `Except`.
-/

namespace TweeksSync

/-- ASCII model of Python's `\s` character class
(`' '`, `'\t'`, `'\n'`, `'\r'`, `'\x0b'`, `'\x0c'`). -/
def isSpacePy (c : Char) : Bool :=
  c = ' ' || c = '\t' || c = '\n' || c = '\r' || c = '\x0b' || c = '\x0c'

/-- ASCII model of Python's `\w` character class (`[A-Za-z0-9_]`). -/
def isWordPy (c : Char) : Bool :=
  c.isAlpha || c.isDigit || c = '_'

/-- ASCII model of `str.lower` on a single character. -/
def pyLowerChar (c : Char) : Char :=
  if 'A' ≤ c && c ≤ 'Z' then Char.ofNat (c.toNat + 32) else c

/-- `pat` occurs as a prefix of `l` (model of Python `str.startswith`). -/
def startsWithChars : List Char → List Char → Bool
  | [], _ => true
  | _ :: _, [] => false
  | p :: ps, c :: cs => p = c && startsWithChars ps cs

/-- Model of Python `str.strip()`: drop ASCII whitespace from both ends. -/
def stripWs (l : List Char) : List Char :=
  ((l.dropWhile isSpacePy).reverse.dropWhile isSpacePy).reverse

/-- Lookup in an insertion-ordered association list (Python `dict` read). -/
def lookupA {α : Type} : List (String × α) → String → Option α
  | [], _ => none
  | (k, v) :: rest, key => if k = key then some v else lookupA rest key

/-- Python `dict` assignment: replace the value of an existing key in place,
append a new key at the end. -/
def setA {α : Type} : List (String × α) → String → α → List (String × α)
  | [], key, v => [(key, v)]
  | (k, w) :: rest, key, v =>
    if k = key then (key, v) :: rest else (k, w) :: setA rest key v

/-! ## `slugify` (tweeks_sync.py lines 171–176) -/

/-- Characters kept by `re.sub(r'[^\w\s-]', '', text)`. -/
def slugKeep (c : Char) : Bool :=
  isWordPy c || isSpacePy c || c = '-'

/-- A separator character for `re.sub(r'[-\s]+', '-', text)`. -/
def isSep (c : Char) : Bool :=
  c = '-' || isSpacePy c

/-- `re.sub(r'[-\s]+', '-', text)`: each maximal run of hyphens/whitespace
becomes a single hyphen. -/
def collapseSep : List Char → List Char
  | [] => []
  | [c] => if isSep c then ['-'] else [c]
  | c :: d :: rest =>
    if isSep c then
      if isSep d then collapseSep (d :: rest)
      else '-' :: collapseSep (d :: rest)
    else c :: collapseSep (d :: rest)

/-- Model of Python `str.strip('-')`. -/
def stripDashes (l : List Char) : List Char :=
  ((l.dropWhile (fun c => c = '-')).reverse.dropWhile (fun c => c = '-')).reverse

/-- `slugify` from tweeks_sync.py lines 171–176: lower-case, drop characters
outside word/whitespace/hyphen, collapse separator runs to single hyphens,
strip leading/trailing hyphens. -/
def slugify (s : String) : String :=
  (stripDashes (collapseSep ((s.data.map pyLowerChar).filter slugKeep))).asString

/-- Independent rendering of the specification's description of `slugify`:
the run-collapsing step is implemented as a right fold that inserts a hyphen
only when none is already pending. -/
def collapseSepSpec (l : List Char) : List Char :=
  l.foldr
    (fun c acc =>
      if isSep c then
        if acc.head? = some '-' then acc else '-' :: acc
      else c :: acc)
    []

/-- The specification's pipeline for `slugify`, assembled from the
independently implemented collapse step. -/
def slugifySpec (s : String) : String :=
  (stripDashes (collapseSepSpec ((s.data.map pyLowerChar).filter slugKeep))).asString

/-! ## `parse_userscript_metadata` (tweeks_sync.py lines 179–203) -/

/-- A metadata value: a scalar for a key seen once, an ordered list for a
key seen repeatedly. -/
inductive MetaVal where
  | str (s : String)
  | list (l : List String)
  deriving DecidableEq, Repr

/-- Insertion-ordered metadata mapping. -/
abbrev Metadata := List (String × MetaVal)

/-- Length of the maximal whitespace run at the head of `l`. -/
def wsRun : List Char → Nat
  | [] => 0
  | c :: rest => if isSpacePy c then wsRun rest + 1 else 0

/-- The begin-sentinel pattern `//\s*==UserScript==` matched at absolute
position `i` of `t`; returns the absolute position just past the match
(where the `(.*?)` group starts).  Since `=` is not whitespace, `\s*` can
only match the maximal whitespace run. -/
def beginMatchAt (t : List Char) (i : Nat) : Option Nat :=
  if startsWithChars ['/', '/'] (t.drop i) then
    if startsWithChars "==UserScript==".data
        ((t.drop i).drop (2 + wsRun ((t.drop i).drop 2))) then
      some (i + 2 + wsRun ((t.drop i).drop 2) + 14)
    else none
  else none

/-- The end-sentinel pattern `//\s*==/UserScript==` matches at absolute
position `j` of `t`. -/
def endMatchAt (t : List Char) (j : Nat) : Bool :=
  if startsWithChars ['/', '/'] (t.drop j) then
    startsWithChars "==/UserScript==".data
      ((t.drop j).drop (2 + wsRun ((t.drop j).drop 2)))
  else false

/-- Least position in `[lo, lo + cnt)` satisfying `p`. -/
def searchIdx (p : Nat → Bool) : Nat → Nat → Option Nat
  | _, 0 => none
  | lo, cnt + 1 => if p lo then some lo else searchIdx p (lo + 1) cnt

/-- One position of `t` both begins a header block and is followed by an
end sentinel: the overall regex can match starting there. -/
def headerAt (t : List Char) (i : Nat) : Bool :=
  match beginMatchAt t i with
  | some e => (searchIdx (fun j => endMatchAt t j) e (t.length + 1 - e)).isSome
  | none => false

/-- Model of
`re.search(r'//\s*==UserScript==(.*?)//\s*==/UserScript==', script, re.DOTALL)`:
the group-1 text for the leftmost position where the whole pattern matches,
with the non-greedy `(.*?)` ending at the first subsequent end sentinel. -/
def findHeaderBlock (t : List Char) : Option (List Char) :=
  match searchIdx (fun i => headerAt t i) 0 (t.length + 1) with
  | none => none
  | some i =>
    match beginMatchAt t i with
    | none => none
    | some e =>
      match searchIdx (fun j => endMatchAt t j) e (t.length + 1 - e) with
      | none => none
      | some j => some ((t.drop e).take (j - e))

/-- Model of Python `str.split('\n')`. -/
def splitNl (l : List Char) : List (List Char) :=
  l.foldr
    (fun c acc =>
      if c = '\n' then [] :: acc
      else
        match acc with
        | a :: as => (c :: a) :: as
        | [] => [[c]])
    [[]]

/-- One header line: strip, require the `//` comment prefix, strip again,
and match `re.match(r'@(\w+)\s+(.*)', line)` — an `@`, a nonempty maximal
word-character run, at least one whitespace character, then the remainder. -/
def parseMetaLine (line : List Char) : Option (String × String) :=
  let l1 := stripWs line
  if startsWithChars ['/', '/'] l1 then
    match stripWs (l1.drop 2) with
    | '@' :: rest =>
      let key := rest.takeWhile isWordPy
      let after := rest.dropWhile isWordPy
      if key = [] then none
      else if after.takeWhile isSpacePy = [] then none
      else some (key.asString, (after.dropWhile isSpacePy).asString)
    | _ => none
  else none

/-- Accumulate one `@key value` pair: a new key is appended as a scalar, a
repeated key turns its scalar into a two-element list, and further
repetitions append to the list. -/
def addMetaPair (m : Metadata) (kv : String × String) : Metadata :=
  match lookupA m kv.1 with
  | none => setA m kv.1 (.str kv.2)
  | some (.str old) => setA m kv.1 (.list [old, kv.2])
  | some (.list l) => setA m kv.1 (.list (l ++ [kv.2]))

/-- `parse_userscript_metadata` from tweeks_sync.py lines 179–203. -/
def parse_userscript_metadata (script : String) : Metadata :=
  match findHeaderBlock script.data with
  | none => []
  | some block => ((splitNl block).filterMap parseMetaLine).foldl addMetaPair []

/-! ## JSON values and a model of Python `json.loads`

`json.loads` is standard-library code external to the repository; it is
modelled here for the inputs the scanner and the manifest handling can
produce: values are `null`, booleans, numbers (kept as their lexeme, plus
the `NaN`/`Infinity` literals Python accepts), strings with the standard
escapes (a lone surrogate escape is rejected, where Python would build a
surrogate code unit), arrays and insertion-ordered objects in which a
repeated key keeps its first position with the last value, exactly as a
Python `dict` built key by key. -/

/-- A parsed JSON value. -/
inductive JVal where
  | null
  | bool (b : Bool)
  | num (lit : String)
  | str (s : String)
  | arr (elems : List JVal)
  | obj (fields : List (String × JVal))

/-- Equality of a JSON value with a Python string: only a JSON string can
compare equal to a `str`. -/
def JVal.eqStr : JVal → String → Bool
  | .str s, u => decide (s = u)
  | _, _ => false

/-- JSON whitespace (the only whitespace `json.loads` skips). -/
def jskipWs (l : List Char) : List Char :=
  l.dropWhile (fun c => c = ' ' || c = '\t' || c = '\n' || c = '\r')

/-- Hexadecimal digit value (code points 0-9, a-f, A-F). -/
def hexVal (c : Char) : Option Nat :=
  let n := c.toNat
  if 48 ≤ n ∧ n ≤ 57 then some (n - 48)
  else if 97 ≤ n ∧ n ≤ 102 then some (n - 87)
  else if 65 ≤ n ∧ n ≤ 70 then some (n - 55)
  else none

/-- Value of four hexadecimal digits. -/
def hex4 (a b c d : Char) : Option Nat :=
  match hexVal a, hexVal b, hexVal c, hexVal d with
  | some x, some y, some z, some w => some (4096 * x + 256 * y + 16 * z + w)
  | _, _, _, _ => none

/-- Parse the body of a JSON string after the opening quote; returns the
decoded characters and the input after the closing quote. -/
def jstr : List Char → Option (List Char × List Char)
  | [] => none
  | '"' :: rest => some ([], rest)
  | '\\' :: 'u' :: a :: b :: c :: d :: rest =>
    match hex4 a b c d with
    | none => none
    | some n =>
      if 0xD800 ≤ n && n ≤ 0xDBFF then
        match rest with
        | '\\' :: 'u' :: e :: f :: g :: h :: rest2 =>
          match hex4 e f g h with
          | none => none
          | some m =>
            if 0xDC00 ≤ m && m ≤ 0xDFFF then
              match jstr rest2 with
              | none => none
              | some (cs, r) =>
                some (Char.ofNat (0x10000 + (n - 0xD800) * 0x400 + (m - 0xDC00)) :: cs, r)
            else none
        | _ => none
      else if 0xDC00 ≤ n && n ≤ 0xDFFF then none
      else
        match jstr rest with
        | none => none
        | some (cs, r) => some (Char.ofNat n :: cs, r)
  | '\\' :: e :: rest =>
    let ch : Option Char :=
      if e = '"' then some '"'
      else if e = '\\' then some '\\'
      else if e = '/' then some '/'
      else if e = 'b' then some '\x08'
      else if e = 'f' then some '\x0c'
      else if e = 'n' then some '\n'
      else if e = 'r' then some '\r'
      else if e = 't' then some '\t'
      else none
    match ch with
    | none => none
    | some ch =>
      match jstr rest with
      | none => none
      | some (cs, r) => some (ch :: cs, r)
  | c :: rest =>
    if c.toNat < 0x20 then none
    else
      match jstr rest with
      | none => none
      | some (cs, r) => some (c :: cs, r)

/-- Lex a JSON number; returns its lexeme and the rest of the input. -/
def jnum (l : List Char) : Option (List Char × List Char) :=
  let (sign, l1) :=
    match l with
    | '-' :: r => (['-'], r)
    | _ => (([] : List Char), l)
  match l1 with
  | '0' :: r => jnumFrac (sign ++ ['0']) r
  | c :: _ =>
    if c.isDigit then
      jnumFrac (sign ++ l1.takeWhile Char.isDigit) (l1.dropWhile Char.isDigit)
    else none
  | [] => none
where
  jnumFrac (intPart : List Char) (l : List Char) : Option (List Char × List Char) :=
    let (fracPart, l2) :=
      match l with
      | '.' :: r =>
        if (r.takeWhile Char.isDigit).isEmpty then (none, l)
        else (some ('.' :: r.takeWhile Char.isDigit), r.dropWhile Char.isDigit)
      | _ => ((none : Option (List Char)), l)
    match fracPart, l2 with
    | none, '.' :: _ => none
    | fp, l2 =>
      let frac := fp.getD []
      match l2 with
      | 'e' :: r => jnumExp (intPart ++ frac) 'e' r
      | 'E' :: r => jnumExp (intPart ++ frac) 'E' r
      | _ => some (intPart ++ frac, l2)
  jnumExp (mantissa : List Char) (e : Char) (l : List Char) : Option (List Char × List Char) :=
    let (sign, l1) :=
      match l with
      | '+' :: r => (['+'], r)
      | '-' :: r => (['-'], r)
      | _ => (([] : List Char), l)
    let digs := l1.takeWhile Char.isDigit
    if digs.isEmpty then none
    else some (mantissa ++ [e] ++ sign ++ digs, l1.dropWhile Char.isDigit)

mutual

/-- Parse one JSON value (fuel-bounded recursion; the initial fuel chosen
in `jsonLoads` always suffices). -/
def jvalP : Nat → List Char → Option (JVal × List Char)
  | 0, _ => none
  | fuel + 1, l =>
    let l := jskipWs l
    match l with
    | '{' :: r =>
      match jskipWs r with
      | '}' :: r2 => some (.obj [], r2)
      | r1 => jmembersP fuel r1 []
    | '[' :: r =>
      match jskipWs r with
      | ']' :: r2 => some (.arr [], r2)
      | r1 => jelemsP fuel r1 []
    | '"' :: r =>
      match jstr r with
      | none => none
      | some (cs, rest) => some (.str cs.asString, rest)
    | _ =>
      if startsWithChars "true".data l then some (.bool true, l.drop 4)
      else if startsWithChars "false".data l then some (.bool false, l.drop 5)
      else if startsWithChars "null".data l then some (.null, l.drop 4)
      else if startsWithChars "NaN".data l then some (.num "NaN", l.drop 3)
      else if startsWithChars "Infinity".data l then some (.num "Infinity", l.drop 8)
      else if startsWithChars "-Infinity".data l then some (.num "-Infinity", l.drop 9)
      else
        match jnum l with
        | none => none
        | some (lex, rest) => some (.num lex.asString, rest)

/-- Parse the members of a JSON object, positioned at a key string. -/
def jmembersP : Nat → List Char → List (String × JVal) → Option (JVal × List Char)
  | 0, _, _ => none
  | fuel + 1, l, acc =>
    match l with
    | '"' :: r =>
      match jstr r with
      | none => none
      | some (key, r1) =>
        match jskipWs r1 with
        | ':' :: r2 =>
          match jvalP fuel r2 with
          | none => none
          | some (v, r3) =>
            let acc' := setA acc key.asString v
            match jskipWs r3 with
            | ',' :: r4 => jmembersP fuel (jskipWs r4) acc'
            | '}' :: r4 => some (.obj acc', r4)
            | _ => none
        | _ => none
    | _ => none

/-- Parse the elements of a JSON array, positioned at a value. -/
def jelemsP : Nat → List Char → List JVal → Option (JVal × List Char)
  | 0, _, _ => none
  | fuel + 1, l, acc =>
    match jvalP fuel l with
    | none => none
    | some (v, r) =>
      match jskipWs r with
      | ',' :: r2 => jelemsP fuel (jskipWs r2) (acc ++ [v])
      | ']' :: r2 => some (.arr (acc ++ [v]), r2)
      | _ => none

end

/-- Model of Python `json.loads`: parse one value and require only
whitespace to remain. -/
def jsonLoads (l : List Char) : Option JVal :=
  match jvalP (2 * l.length + 2) l with
  | some (v, rest) => if jskipWs rest = [] then some v else none
  | none => none

/-! ## The record scanner `parse_scripts_from_text`
(tweeks_sync.py lines 254–311) -/

/-- The header sentinel `==UserScript==`. -/
def sentinel : List Char := "==UserScript==".data

/-- First index `≥ i` (where `i` is the index of the head of `l` within the
enclosing text) at which `pat` occurs in `l`. -/
def subFindAux (pat : List Char) : List Char → Nat → Option Nat
  | [], i => if pat.isEmpty then some i else none
  | c :: rest, i =>
    if startsWithChars pat (c :: rest) then some i
    else subFindAux pat rest (i + 1)

/-- Model of Python `text.find(pat, start)` (as an `Option`). -/
def findSub (t pat : List Char) (start : Nat) : Option Nat :=
  subFindAux pat (t.drop start) start

/-- Model of Python `pat in l`. -/
def containsSub (l pat : List Char) : Bool :=
  (subFindAux pat l 0).isSome

/-- The brace/string/escape state machine of the scanner (lines 268–295):
process characters starting at absolute index `i` with the given brace
count, in-string flag and pending-escape flag; return the absolute index
just past the brace that returns the count to zero, or `none` if the text
ends first. -/
def braceScan : List Char → Nat → Int → Bool → Bool → Option Nat
  | [], _, _, _, _ => none
  | c :: rest, i, count, instr, esc =>
    if esc then braceScan rest (i + 1) count instr false
    else if c = '\\' then braceScan rest (i + 1) count instr true
    else if c = '"' then braceScan rest (i + 1) count (!instr) esc
    else if instr then braceScan rest (i + 1) count instr esc
    else if c = '{' then braceScan rest (i + 1) (count + 1) instr esc
    else if c = '}' then
      if count - 1 = 0 then some (i + 1)
      else braceScan rest (i + 1) (count - 1) instr esc
    else braceScan rest (i + 1) count instr esc

/-- Record the string values containing the sentinel from a successfully
parsed JSON object (lines 300–304); any other JSON value is ignored. -/
def recordScripts (acc : List (String × String)) (v : JVal) : List (String × String) :=
  match v with
  | .obj fields =>
    fields.foldl
      (fun a kv =>
        match kv.2 with
        | .str s => if containsSub s.data sentinel then setA a kv.1 s else a
        | _ => a)
      acc
  | _ => acc

/-- The scanner loop (lines 258–309), instrumented with the list of
candidate start offsets it visits.  `none` signals fuel exhaustion;
`scanAux_total` shows the initial fuel of `parse_scripts_from_text`
always suffices. -/
def scanAux : Nat → List Char → Nat → List (String × String) →
    Option (List (String × String) × List Nat)
  | 0, _, _, _ => none
  | fuel + 1, t, idx, acc =>
    match findSub t ['{', '"'] idx with
    | none => some (acc, [])
    | some start =>
      if containsSub ((t.drop start).take 5000) sentinel then
        match braceScan (t.drop start) start 0 false false with
        | some e =>
          let acc' :=
            match jsonLoads ((t.drop start).take (e - start)) with
            | some v => recordScripts acc v
            | none => acc
          match scanAux fuel t e acc' with
          | none => none
          | some (res, starts) => some (res, start :: starts)
        | none =>
          match scanAux fuel t (start + 1) acc with
          | none => none
          | some (res, starts) => some (res, start :: starts)
      else
        match scanAux fuel t (start + 1) acc with
        | none => none
        | some (res, starts) => some (res, start :: starts)

/-- `parse_scripts_from_text` from tweeks_sync.py lines 254–311. -/
def parse_scripts_from_text (text : String) : List (String × String) :=
  match scanAux (text.data.length + 1) text.data 0 [] with
  | some (res, _) => res
  | none => []

/-! ## The export reconciler `export_userscripts`
(tweeks_sync.py lines 339–423)

File contents of the output directory are an association list from
filename to text; the manifest file is kept separately, as either missing,
present-but-not-JSON (`corrupt`), or a parsed JSON value.  `json.dump`
followed by `json.load` round-trips every value the code writes, so
storing the parsed value is a faithful model of the persisted file.
`datetime.now().isoformat()` is modelled by a `now` string passed to the
run (the code samples the clock several times per run; nothing here
depends on the sub-second differences).  Paths on which the Python code
raises an uncaught exception return `Except.error`, carrying the directory
state at the moment of the fault (files already written persist). -/

/-- One row of the manifest, as built at lines 382–388. -/
structure Entry where
  uuid : String
  name : String
  filename : String
  metadata : Metadata
  syncedAt : String
  deriving DecidableEq, Repr

/-- The JSON rendering of a metadata mapping. -/
def metaToJVal (m : Metadata) : JVal :=
  .obj (m.map fun kv =>
    (kv.1,
      match kv.2 with
      | .str s => JVal.str s
      | .list l => JVal.arr (l.map JVal.str)))

/-- The JSON rendering of a manifest row. -/
def entryToJVal (e : Entry) : JVal :=
  .obj
    [("uuid", .str e.uuid), ("name", .str e.name), ("filename", .str e.filename),
     ("metadata", metaToJVal e.metadata), ("synced_at", .str e.syncedAt)]

/-- The manifest file state. -/
inductive MFile where
  | missing
  | corrupt
  | jval (v : JVal)

/-- The output directory: script files plus the manifest file. -/
structure DirState where
  files : List (String × String)
  manifest : MFile

/-- `metadata.get('name', uuid)` at line 356, followed by `slugify(name)`:
when the `name` key holds a list (a repeated `@name` header), Python's
`slugify` raises `AttributeError` on `text.lower()`; that fault is the
`error` case. -/
def metaName (uuid script : String) : Except Unit String :=
  match lookupA (parse_userscript_metadata script) "name" with
  | none => .ok uuid
  | some (.str n) => .ok n
  | some (.list _) => .error ()

/-- The filename a script would be exported under (lines 356–358). -/
def fileNameOf (uuid script : String) : Except Unit String :=
  (metaName uuid script).map fun n => slugify n ++ ".user.js"

/-- The per-script loop of `export_userscripts` (lines 354–388): threads
the file map, the `exported` list and the added/updated counters; a fault
aborts the loop and returns the files written so far. -/
def processScripts (now : String) :
    List (String × String) → List (String × String) → List Entry → Nat → Nat →
    Except (List (String × String)) (List (String × String) × List Entry × Nat × Nat)
  | [], files, exported, added, updated => .ok (files, exported, added, updated)
  | (uuid, script) :: rest, files, exported, added, updated =>
    match metaName uuid script with
    | .error _ => .error files
    | .ok name =>
      let filename := slugify name ++ ".user.js"
      let entry : Entry :=
        ⟨uuid, name, filename, parse_userscript_metadata script, now⟩
      match lookupA files filename with
      | none =>
        processScripts now rest (setA files filename script) (exported ++ [entry])
          (added + 1) updated
      | some existing =>
        if existing = script then
          processScripts now rest files (exported ++ [entry]) added updated
        else
          processScripts now rest (setA files filename script) (exported ++ [entry])
            added (updated + 1)

/-- The `uuid` field of a manifest row compared with a string, as in
`s['uuid'] != exp['uuid']` (line 410). -/
def uuidEq (s : JVal) (u : String) : Bool :=
  match s with
  | .obj fields =>
    match lookupA fields "uuid" with
    | some jv => jv.eqStr u
    | none => false
  | _ => false

/-- A JSON value Python can hash (needed for set membership): anything but
a list or a dict. -/
def jhashable : JVal → Bool
  | .arr _ => false
  | .obj _ => false
  | _ => true

/-- `{s['uuid'] for s in manifest.get('scripts', [])}` (line 405): each
element must be an object carrying a hashable `uuid`, else Python raises
(`TypeError`/`KeyError`). -/
def extractUuids : List JVal → Except Unit (List JVal)
  | [] => .ok []
  | s :: rest =>
    match s with
    | .obj fields =>
      match lookupA fields "uuid" with
      | some u =>
        if jhashable u then
          match extractUuids rest with
          | .ok us => .ok (u :: us)
          | .error e => .error e
        else .error ()
      | none => .error ()
    | _ => .error ()

/-- The replace-or-append loop at lines 407–414: `uuids` is the uuid set
of the pre-existing entries, computed once and never extended. -/
def mergeScriptsList (init : List JVal) (uuids : List JVal) (exps : List Entry) :
    List JVal :=
  exps.foldl
    (fun cur e =>
      if uuids.any (fun jv => jv.eqStr e.uuid) then
        cur.map (fun s => if uuidEq s e.uuid then entryToJVal e else s)
      else cur ++ [entryToJVal e])
    init

/-- The manifest update at lines 394–419, applied when manifest writing is
enabled and the run changed something.  A missing or non-JSON manifest is
replaced by the default `{'scripts': [], 'last_updated': now}`; a JSON
value that is not an object with a well-formed `scripts` list makes the
Python code raise before the manifest is written (`error`; the loop only
runs here with a nonempty `exported`, so the non-list `scripts` shapes all
fault before `json.dump`).

Lines 396–403 are `manifestLoaded`: the manifest value the update starts
from — the parsed file if it exists and parses, else the fresh default. -/
def manifestLoaded (mf : MFile) (now : String) : JVal :=
  match mf with
  | .jval v => v
  | _ => .obj [("scripts", .arr []), ("last_updated", .str now)]

def manifestPhase (mf : MFile) (exported : List Entry) (now : String) :
    Except Unit JVal :=
  match manifestLoaded mf now with
  | .obj fields =>
    match lookupA fields "scripts" with
    | none => .error ()
    | some sv =>
      match sv with
      | .arr l =>
        match extractUuids l with
        | .error _ => .error ()
        | .ok uuids =>
          let merged := mergeScriptsList l uuids exported
          .ok (.obj (setA (setA fields "scripts" (.arr merged)) "last_updated" (.str now)))
      | _ => .error ()
  | _ => .error ()

/-- The result tuple of `export_userscripts`. -/
structure ExportOut where
  exported : List Entry
  added : Nat
  updated : Nat
  removed : Nat
  dir : DirState

/-- `export_userscripts` from tweeks_sync.py lines 339–423. -/
def export_userscripts (scripts : List (String × String)) (dir : DirState)
    (includeManifest : Bool) (now : String) : Except DirState ExportOut :=
  match processScripts now scripts dir.files [] 0 0 with
  | .error files1 => .error ⟨files1, dir.manifest⟩
  | .ok (files1, exported, added, updated) =>
    let removed := 0
    if includeManifest = true ∧ (0 < added ∨ 0 < updated ∨ 0 < removed) then
      match manifestPhase dir.manifest exported now with
      | .error _ => .error ⟨files1, dir.manifest⟩
      | .ok v =>
        .ok ⟨exported, added, updated, removed, ⟨files1, .jval v⟩⟩
    else .ok ⟨exported, added, updated, removed, ⟨files1, dir.manifest⟩⟩

/-- Some position of `t` carries the begin sentinel with an end sentinel
at or after the point where the block would start: the header-block regex
matches somewhere. -/
def HasHeader (t : List Char) : Prop :=
  ∃ i e j, beginMatchAt t i = some e ∧ e ≤ j ∧ endMatchAt t j = true

/-- The `@key value` pairs of a header block, in line order. -/
def metaPairs (block : List Char) : List (String × String) :=
  (splitNl block).filterMap parseMetaLine

/-- The values attached to key `k` in a header block, in line order. -/
def valuesOf (k : String) (block : List Char) : List String :=
  (metaPairs block).filterMap fun p => if p.1 = k then some p.2 else none

/-- What the metadata mapping should hold for a key whose value list is
`vs`: nothing, a scalar, or the ordered list. -/
def collapseVals : List String → Option MetaVal
  | [] => none
  | [v] => some (.str v)
  | v :: vs => some (.list (v :: vs))

/-- Folding further values into an existing metadata slot. -/
def addVals (o : Option MetaVal) (vs : List String) : Option MetaVal :=
  vs.foldl
    (fun acc v =>
      some
        (match acc with
        | none => MetaVal.str v
        | some (.str a) => .list [a, v]
        | some (.list l) => .list (l ++ [v])))
    o

instance : DecidableEq (Except Unit String)
  | .error (), .error () => .isTrue rfl
  | .error (), .ok _ => .isFalse (fun h => Except.noConfusion h)
  | .ok _, .error () => .isFalse (fun h => Except.noConfusion h)
  | .ok s, .ok t =>
    match decEq s t with
    | .isTrue h => .isTrue (h ▸ rfl)
    | .isFalse h => .isFalse (fun hc => h (Except.ok.inj hc))

/-! ## Lemmas about `slugify` -/

theorem collapseSep_head_sep (d : Char) (r : List Char) (h : isSep d = true) :
    (collapseSep (d :: r)).head? = some '-' := by
  induction r generalizing d with
  | nil => simp [collapseSep, h]
  | cons e r' ih =>
    by_cases he : isSep e = true
    · simpa [collapseSep, h, he] using ih e he
    · simp [collapseSep, h, he]

theorem collapseSep_head_nonsep (d : Char) (r : List Char) (h : isSep d = false) :
    (collapseSep (d :: r)).head? = some d := by
  cases r with
  | nil => simp [collapseSep, h]
  | cons e r' => simp [collapseSep, h]

theorem collapseSep_eq_spec (l : List Char) : collapseSep l = collapseSepSpec l := by
  induction l with
  | nil => rfl
  | cons c l' ih =>
    cases l' with
    | nil =>
      by_cases hc : isSep c = true <;>
        simp [collapseSep, collapseSepSpec, hc]
    | cons d rest =>
      have hspec : collapseSepSpec (c :: d :: rest) =
          (if isSep c then
            if (collapseSepSpec (d :: rest)).head? = some '-' then
              collapseSepSpec (d :: rest)
            else '-' :: collapseSepSpec (d :: rest)
          else c :: collapseSepSpec (d :: rest)) := rfl
      rw [hspec, ← ih]
      by_cases hc : isSep c = true
      · by_cases hd : isSep d = true
        · rw [collapseSep_head_sep d rest hd]
          simp [collapseSep, hc, hd]
        · rw [collapseSep_head_nonsep d rest (by simpa using hd)]
          have hne : d ≠ '-' := by
            intro hdd
            simp [isSep, hdd] at hd
          simp [collapseSep, hc, hd, hne]
      · simp [collapseSep, hc]

/-- C8: `slugify("My Script! v2.0")` is `"my-script-v20"`, and on every
input `slugify` agrees with the specification pipeline: lower-case, strip
characters outside word/space/hyphen, collapse each run of whitespace and
hyphens to a single hyphen, trim leading and trailing hyphens. -/
theorem slugify_correct :
    slugify "My Script! v2.0" = "my-script-v20" ∧
      ∀ s : String, slugify s = slugifySpec s := by
  constructor
  · decide
  · intro s
    unfold slugify slugifySpec
    rw [collapseSep_eq_spec]

/-! ## Lemmas about the scanner -/

theorem startsWithChars_length (p l : List Char) (h : startsWithChars p l = true) :
    p.length ≤ l.length := by
  induction p generalizing l with
  | nil => simp
  | cons a p' ih =>
    cases l with
    | nil => simp [startsWithChars] at h
    | cons c l' =>
      simp only [startsWithChars, Bool.and_eq_true] at h
      simpa using ih l' h.2

theorem subFindAux_bounds (pat : List Char) (l : List Char) (i j : Nat)
    (h : subFindAux pat l i = some j) :
    i ≤ j ∧ j + pat.length ≤ i + l.length := by
  induction l generalizing i with
  | nil =>
    by_cases hp : pat.isEmpty
    · simp only [subFindAux, hp, if_pos, Option.some.injEq] at h
      subst h
      simp [List.isEmpty_iff.mp hp]
    · simp [subFindAux, hp] at h
  | cons c rest ih =>
    by_cases hs : startsWithChars pat (c :: rest) = true
    · simp only [subFindAux, hs, if_pos, Option.some.injEq] at h
      subst h
      exact ⟨le_refl _, by
        have := startsWithChars_length pat (c :: rest) hs
        omega⟩
    · simp only [subFindAux, hs] at h
      have := ih (i + 1) h
      constructor
      · omega
      · simp only [List.length_cons]
        omega

theorem findSub_pat2_bounds (t : List Char) (a b : Char) (start j : Nat)
    (h : findSub t [a, b] start = some j) :
    start ≤ j ∧ j + 2 ≤ t.length := by
  have hb := subFindAux_bounds [a, b] (t.drop start) start j h
  rcases hb with ⟨h1, h2⟩
  refine ⟨h1, ?_⟩
  by_cases hlen : start ≤ t.length
  · simp only [List.length_cons, List.length_nil, List.length_drop] at h2
    omega
  · exfalso
    have hdrop : t.drop start = [] := by
      apply List.drop_eq_nil_of_le
      omega
    unfold findSub at h
    rw [hdrop] at h
    simp [subFindAux, List.isEmpty] at h

theorem braceScan_bounds (l : List Char) (i : Nat) (cnt : Int) (instr esc : Bool)
    (e : Nat) (h : braceScan l i cnt instr esc = some e) :
    i < e ∧ e ≤ i + l.length := by
  induction l generalizing i cnt instr esc with
  | nil => simp [braceScan] at h
  | cons c rest ih =>
    simp only [braceScan] at h
    split at h
    · have := ih (i + 1) cnt instr false h
      simp only [List.length_cons]; omega
    · split at h
      · have := ih (i + 1) cnt instr true h
        simp only [List.length_cons]; omega
      · split at h
        · have := ih (i + 1) cnt (!instr) esc h
          simp only [List.length_cons]; omega
        · split at h
          · have := ih (i + 1) cnt instr esc h
            simp only [List.length_cons]; omega
          · split at h
            · have := ih (i + 1) (cnt + 1) instr esc h
              simp only [List.length_cons]; omega
            · split at h
              · split at h
                · simp only [Option.some.injEq] at h
                  subst h
                  simp only [List.length_cons]; omega
                · have := ih (i + 1) (cnt - 1) instr esc h
                  simp only [List.length_cons]; omega
              · have := ih (i + 1) cnt instr esc h
                simp only [List.length_cons]; omega

theorem scanAux_progress (t : List Char) :
    ∀ fuel idx acc, t.length + 1 ≤ fuel + idx → 0 < fuel →
      ∃ res starts, scanAux fuel t idx acc = some (res, starts) ∧
        starts.Chain' (· < ·) ∧ ∀ s ∈ starts, idx ≤ s := by
  intro fuel
  induction fuel with
  | zero => intro idx acc _ hpos; omega
  | succ fuel ih =>
    intro idx acc hle _
    match hfind : findSub t ['{', '"'] idx with
    | none =>
      exact ⟨acc, [], by simp [scanAux, hfind], by simp, by simp⟩
    | some start =>
      have hbounds := findSub_pat2_bounds t '{' '"' idx start hfind
      have hfuel : 0 < fuel := by omega
      by_cases hsent : containsSub ((t.drop start).take 5000) sentinel = true
      · match hbrace : braceScan (t.drop start) start 0 false false with
        | some e =>
          have hbb := braceScan_bounds (t.drop start) start 0 false false e hbrace
          have he : e ≤ t.length := by
            rcases hbb with ⟨_, h2⟩
            simp only [List.length_drop] at h2
            omega
          obtain ⟨res, starts, hrec, hch, hge⟩ :=
            ih e (match jsonLoads ((t.drop start).take (e - start)) with
                  | some v => recordScripts acc v
                  | none => acc)
              (by omega) hfuel
          refine ⟨res, start :: starts, ?_, ?_, ?_⟩
          · simp only [scanAux, hfind, hsent, if_pos, hbrace]
            rw [hrec]
          · refine List.chain'_cons'.mpr ⟨?_, hch⟩
            intro y hy
            have := hge y (List.mem_of_mem_head? hy)
            omega
          · intro s hs
            rcases List.mem_cons.mp hs with h | h
            · omega
            · have := hge s h; omega
        | none =>
          obtain ⟨res, starts, hrec, hch, hge⟩ := ih (start + 1) acc (by omega) hfuel
          refine ⟨res, start :: starts, ?_, ?_, ?_⟩
          · simp only [scanAux, hfind, hsent, if_pos, hbrace]
            rw [hrec]
          · refine List.chain'_cons'.mpr ⟨?_, hch⟩
            intro y hy
            have := hge y (List.mem_of_mem_head? hy)
            omega
          · intro s hs
            rcases List.mem_cons.mp hs with h | h
            · omega
            · have := hge s h; omega
      · obtain ⟨res, starts, hrec, hch, hge⟩ := ih (start + 1) acc (by omega) hfuel
        refine ⟨res, start :: starts, ?_, ?_, ?_⟩
        · simp only [scanAux, hfind]
          rw [if_neg (by simpa using hsent)]
          rw [hrec]
        · refine List.chain'_cons'.mpr ⟨?_, hch⟩
          intro y hy
          have := hge y (List.mem_of_mem_head? hy)
          omega
        · intro s hs
          rcases List.mem_cons.mp hs with h | h
          · omega
          · have := hge s h; omega

/-- C4: for every input buffer the scanner terminates — the fuel
`length + 1` used by `parse_scripts_from_text` always reaches the normal
exit — and the candidate start offsets it visits are strictly increasing,
so no start offset is ever visited twice, on every branch (sentinel
rejection, unclosed braces, JSON failure, or success). -/
theorem scanner_forward_progress (text : String) :
    ∃ res starts,
      scanAux (text.data.length + 1) text.data 0 [] = some (res, starts) ∧
        parse_scripts_from_text text = res ∧
        List.Pairwise (· < ·) starts := by
  obtain ⟨res, starts, hrun, hch, _⟩ :=
    scanAux_progress text.data (text.data.length + 1) 0 [] (by omega) (by omega)
  refine ⟨res, starts, hrun, ?_, List.chain'_iff_pairwise.mp hch⟩
  unfold parse_scripts_from_text
  rw [hrun]

/-! ## Lemmas about the metadata parser -/

theorem searchIdx_none_iff (p : Nat → Bool) (lo cnt : Nat) :
    searchIdx p lo cnt = none ↔ ∀ k, lo ≤ k → k < lo + cnt → p k = false := by
  induction cnt generalizing lo with
  | zero => simp [searchIdx]; omega
  | succ n ih =>
    by_cases hp : p lo = true
    · simp only [searchIdx, hp, if_pos]
      constructor
      · intro h; exact absurd h (by simp)
      · intro h
        have := h lo (le_refl _) (by omega)
        rw [hp] at this
        exact absurd this (by simp)
    · simp only [searchIdx, hp, if_neg, Bool.not_eq_true]
      rw [ih (lo + 1)]
      constructor
      · intro h k hk1 hk2
        rcases Nat.eq_or_lt_of_le hk1 with rfl | hlt
        · simpa using hp
        · exact h k hlt (by omega)
      · intro h k hk1 hk2
        exact h k (by omega) (by omega)

theorem searchIdx_some (p : Nat → Bool) (lo cnt j : Nat)
    (h : searchIdx p lo cnt = some j) :
    p j = true ∧ lo ≤ j ∧ j < lo + cnt := by
  induction cnt generalizing lo with
  | zero => simp [searchIdx] at h
  | succ n ih =>
    by_cases hp : p lo = true
    · simp only [searchIdx, hp, if_pos, Option.some.injEq] at h
      subst h
      exact ⟨hp, le_refl _, by omega⟩
    · simp only [searchIdx, hp, if_neg, Bool.not_eq_true] at h
      obtain ⟨h1, h2, h3⟩ := ih (lo + 1) h
      exact ⟨h1, by omega, by omega⟩

theorem beginMatchAt_bounds (t : List Char) (i e : Nat)
    (h : beginMatchAt t i = some e) : i ≤ t.length ∧ e ≤ t.length := by
  unfold beginMatchAt at h
  split at h
  · split at h
    · next h2 =>
      simp only [Option.some.injEq] at h
      have hl2 := startsWithChars_length _ _ h2
      simp only [List.length_drop] at hl2
      have h14 : "==UserScript==".data.length = 14 := by decide
      rw [h14] at hl2
      omega
    · exact absurd h (by simp)
  · exact absurd h (by simp)

theorem endMatchAt_bound (t : List Char) (j : Nat)
    (h : endMatchAt t j = true) : j ≤ t.length := by
  unfold endMatchAt at h
  split at h
  · next h1 =>
    have hl1 := startsWithChars_length _ _ h1
    simp only [List.length_drop, List.length_cons, List.length_nil] at hl1
    omega
  · exact absurd h (by simp)

theorem headerAt_extract (t : List Char) (i0 : Nat) (hp : headerAt t i0 = true) :
    ∃ e0 j0, beginMatchAt t i0 = some e0 ∧
      searchIdx (fun j => endMatchAt t j) e0 (t.length + 1 - e0) = some j0 := by
  unfold headerAt at hp
  match hb0 : beginMatchAt t i0 with
  | some e0 =>
    simp only [hb0, Option.isSome_iff_exists] at hp
    obtain ⟨j0, hj0⟩ := hp
    exact ⟨e0, j0, rfl, hj0⟩
  | none => simp [hb0] at hp

theorem findHeaderBlock_none_iff (t : List Char) :
    findHeaderBlock t = none ↔ ¬ HasHeader t := by
  constructor
  · intro h hh
    obtain ⟨i, e, j, hb, hej, hend⟩ := hh
    match hsearch : searchIdx (fun i => headerAt t i) 0 (t.length + 1) with
    | some i0 =>
      obtain ⟨hp, _, _⟩ := searchIdx_some _ _ _ _ hsearch
      obtain ⟨e0, j0, hb0, hj0⟩ := headerAt_extract t i0 hp
      have heq : findHeaderBlock t = some ((t.drop e0).take (j0 - e0)) := by
        simp only [findHeaderBlock, hsearch, hb0, hj0]
      rw [h] at heq
      exact absurd heq (by simp)
    | none =>
      rw [searchIdx_none_iff] at hsearch
      have hi : headerAt t i = false := by
        have := beginMatchAt_bounds t i e hb
        exact hsearch i (by omega) (by omega)
      unfold headerAt at hi
      simp only [hb] at hi
      match hse : searchIdx (fun j => endMatchAt t j) e (t.length + 1 - e) with
      | some j0 => rw [hse] at hi; simp at hi
      | none =>
        rw [searchIdx_none_iff] at hse
        have hjlen := endMatchAt_bound t j hend
        have hfalse := hse j hej (by omega)
        rw [hend] at hfalse
        exact absurd hfalse (by simp)
  · intro hh
    match hsearch : searchIdx (fun i => headerAt t i) 0 (t.length + 1) with
    | none => simp only [findHeaderBlock, hsearch]
    | some i0 =>
      exfalso
      obtain ⟨hp, _, _⟩ := searchIdx_some _ _ _ _ hsearch
      obtain ⟨e0, j0, hb0, hj0⟩ := headerAt_extract t i0 hp
      obtain ⟨hej, hlo, _⟩ := searchIdx_some _ _ _ _ hj0
      exact hh ⟨i0, e0, j0, hb0, hlo, hej⟩

theorem lookupA_setA {α : Type} (m : List (String × α)) (k key : String) (v : α) :
    lookupA (setA m k v) key = if key = k then some v else lookupA m key := by
  induction m with
  | nil =>
    by_cases h : k = key <;>
      simp_all [setA, lookupA, eq_comm]
  | cons kv rest ih =>
    obtain ⟨k', v'⟩ := kv
    by_cases h1 : k' = k <;> by_cases h2 : k' = key <;>
      simp_all [setA, lookupA, eq_comm]

theorem lookupA_addMetaPair (m : Metadata) (k k' v' : String) :
    lookupA (addMetaPair m (k', v')) k =
      if k = k' then
        some
          (match lookupA m k' with
          | none => MetaVal.str v'
          | some (.str a) => .list [a, v']
          | some (.list l) => .list (l ++ [v']))
      else lookupA m k := by
  unfold addMetaPair
  match h : lookupA m k' with
  | none => simp [lookupA_setA, h]
  | some (.str a) => simp [lookupA_setA, h]
  | some (.list l) => simp [lookupA_setA, h]

theorem lookupA_foldl_addMetaPair (ps : List (String × String)) (m : Metadata)
    (k : String) :
    lookupA (ps.foldl addMetaPair m) k =
      addVals (lookupA m k) (ps.filterMap fun p => if p.1 = k then some p.2 else none) := by
  induction ps generalizing m with
  | nil => rfl
  | cons p rest ih =>
    obtain ⟨k', v'⟩ := p
    rw [List.foldl_cons, ih]
    by_cases h : k' = k
    · subst h
      rw [lookupA_addMetaPair]
      simp only [if_pos rfl, List.filterMap_cons]
      simp [addVals]
    · rw [lookupA_addMetaPair]
      have hne : ¬(k = k') := fun hc => h hc.symm
      simp only [if_neg hne, List.filterMap_cons]
      simp [h]

theorem addVals_list (l : List String) (vs : List String) :
    addVals (some (.list l)) vs = some (.list (l ++ vs)) := by
  induction vs generalizing l with
  | nil => simp [addVals]
  | cons v rest ih =>
    show addVals (some (.list (l ++ [v]))) rest = _
    rw [ih]
    simp

theorem addVals_none_eq_collapseVals (vs : List String) :
    addVals none vs = collapseVals vs := by
  match vs with
  | [] => rfl
  | [v] => rfl
  | v :: w :: rest =>
    show addVals (some (.str v)) (w :: rest) = _
    show addVals (some (.list [v, w])) rest = _
    rw [addVals_list]
    rfl

/-- C7: if the header-block pattern matches nowhere in the script, the
metadata parser returns the empty mapping; otherwise, for the block the
parser extracts, every key maps to exactly the collapse of its ordered
value list — absent keys to nothing, single-occurrence keys to a scalar,
repeated keys to the list of their values in first-seen order. -/
theorem metadata_parser_correct (s : String) :
    (¬ HasHeader s.data → parse_userscript_metadata s = []) ∧
      (∀ block, findHeaderBlock s.data = some block →
        ∀ k, lookupA (parse_userscript_metadata s) k = collapseVals (valuesOf k block)) := by
  constructor
  · intro hh
    unfold parse_userscript_metadata
    rw [(findHeaderBlock_none_iff s.data).mpr hh]
  · intro block hb k
    unfold parse_userscript_metadata
    rw [hb]
    rw [lookupA_foldl_addMetaPair]
    show addVals none _ = _
    rw [addVals_none_eq_collapseVals]
    rfl

/-- Witness for C7 at concrete scripts: a script with no header yields the
empty mapping, and in a script with one `@name` line and two `@match`
lines, `name` is a scalar and `match` is the ordered two-element list. -/
theorem metadata_parser_correct_witness :
    parse_userscript_metadata "no header here" = [] ∧
      lookupA
        (parse_userscript_metadata
          "// ==UserScript==\n// @name N\n// @match a\n// @match b\n// ==/UserScript==\nbody")
        "match" = some (.list ["a", "b"]) := by
  constructor
  · exact (metadata_parser_correct "no header here").1
      ((findHeaderBlock_none_iff "no header here".data).mp (by decide))
  · rw [(metadata_parser_correct
      "// ==UserScript==\n// @name N\n// @match a\n// @match b\n// ==/UserScript==\nbody").2
      "\n// @name N\n// @match a\n// @match b\n".data (by decide) "match"]
    decide

/-! ## Lemmas about the per-script loop -/

/-- Whatever happens, the per-script loop never removes a file: every key
present in the file map stays present in the final file map, on the normal
path and on the fault path alike. -/
theorem processScripts_dom (now : String) :
    ∀ scripts files exported a u key,
      (lookupA files key).isSome = true →
      (lookupA
        (match processScripts now scripts files exported a u with
         | .ok (f, _) => f
         | .error f => f) key).isSome = true := by
  intro scripts
  induction scripts with
  | nil => intro files exported a u key h; simpa [processScripts] using h
  | cons p rest ih =>
    intro files exported a u key h
    obtain ⟨uuid, script⟩ := p
    match hm : metaName uuid script with
    | .error e => simpa [processScripts, hm] using h
    | .ok name =>
      have hset : ∀ c, (lookupA
          (setA files (slugify name ++ ".user.js") c) key).isSome = true := by
        intro c
        rw [lookupA_setA]
        by_cases hk : key = slugify name ++ ".user.js"
        · simp [hk]
        · simpa [hk] using h
      match hl : lookupA files (slugify name ++ ".user.js") with
      | none =>
        have := ih (setA files (slugify name ++ ".user.js") script)
          (exported ++ [⟨uuid, name, slugify name ++ ".user.js",
            parse_userscript_metadata script, now⟩]) (a + 1) u key (hset script)
        simpa [processScripts, hm, hl] using this
      | some existing =>
        by_cases he : existing = script
        · have := ih files
            (exported ++ [⟨uuid, name, slugify name ++ ".user.js",
              parse_userscript_metadata script, now⟩]) a u key h
          simpa [processScripts, hm, hl, he] using this
        · have := ih (setA files (slugify name ++ ".user.js") script)
            (exported ++ [⟨uuid, name, slugify name ++ ".user.js",
              parse_userscript_metadata script, now⟩]) a (u + 1) key (hset script)
          simpa [processScripts, hm, hl, he] using this

/-- Frame property of the per-script loop: a file whose name no script
targets with different content keeps its exact content. -/
theorem processScripts_frame (now : String) :
    ∀ scripts files exported a u files1 rest,
      processScripts now scripts files exported a u = .ok (files1, rest) →
      ∀ key c, lookupA files key = some c →
        (∀ p ∈ scripts, fileNameOf p.1 p.2 = .ok key → p.2 = c) →
        lookupA files1 key = some c := by
  intro scripts
  induction scripts with
  | nil =>
    intro files exported a u files1 rest h key c hc _
    simp only [processScripts, Except.ok.injEq] at h
    obtain ⟨rfl, -⟩ := h
    exact hc
  | cons p rest' ih =>
    intro files exported a u files1 rest h key c hc hcond
    obtain ⟨uuid, script⟩ := p
    match hm : metaName uuid script with
    | .error e => simp [processScripts, hm] at h
    | .ok name =>
      have hcond' : ∀ q ∈ rest', fileNameOf q.1 q.2 = .ok key → q.2 = c :=
        fun q hq => hcond q (List.mem_cons_of_mem _ hq)
      rw [processScripts] at h
      simp only [hm] at h
      by_cases hk : slugify name ++ ".user.js" = key
      · have hsc : script = c := by
          apply hcond (uuid, script) (List.mem_cons_self _ _)
          simp [fileNameOf, hm, Except.map, hk]
        have hl : lookupA files (slugify name ++ ".user.js") = some script := by
          rw [hk, hc, hsc]
        simp only [hl, if_true] at h
        exact ih files _ a u files1 rest h key c hc hcond'
      · have hset : lookupA (setA files (slugify name ++ ".user.js") script) key
            = some c := by
          rw [lookupA_setA, if_neg (fun hc2 => hk hc2.symm)]
          exact hc
        match hl : lookupA files (slugify name ++ ".user.js") with
        | none =>
          simp only [hl] at h
          exact ih _ _ _ _ files1 rest h key c hset hcond'
        | some existing =>
          simp only [hl] at h
          by_cases he : existing = script
          · rw [if_pos he] at h
            exact ih _ _ _ _ files1 rest h key c hc hcond'
          · rw [if_neg he] at h
            exact ih _ _ _ _ files1 rest h key c hset hcond'

/-- After a successful loop with pairwise-distinct target filenames, every
script's file holds exactly that script's content. -/
theorem processScripts_writes (now : String) :
    ∀ scripts files exported a u files1 rest,
      processScripts now scripts files exported a u = .ok (files1, rest) →
      ((scripts.map fun p => fileNameOf p.1 p.2).Nodup) →
      ∀ p ∈ scripts, ∃ key, fileNameOf p.1 p.2 = .ok key ∧
        lookupA files1 key = some p.2 := by
  intro scripts
  induction scripts with
  | nil => intro _ _ _ _ _ _ _ _ p hp; exact absurd hp (by simp)
  | cons q rest' ih =>
    intro files exported a u files1 rest h hnd p hp
    obtain ⟨uuid, script⟩ := q
    match hm : metaName uuid script with
    | .error e => simp [processScripts, hm] at h
    | .ok name =>
      have hfn : fileNameOf uuid script = .ok (slugify name ++ ".user.js") := by
        simp [fileNameOf, hm, Except.map]
      have hnd' : (rest'.map fun p => fileNameOf p.1 p.2).Nodup :=
        (List.nodup_cons.mp (by simpa using hnd)).2
      have hnotin : fileNameOf uuid script ∉
          rest'.map fun p => fileNameOf p.1 p.2 :=
        (List.nodup_cons.mp (by simpa using hnd)).1
      rw [processScripts] at h
      simp only [hm] at h
      rcases List.mem_cons.mp hp with rfl | hp'
      · -- head script: its file holds its content and no later script
        -- targets the same name
        have hcond : ∀ q ∈ rest',
            fileNameOf q.1 q.2 = .ok (slugify name ++ ".user.js") →
            q.2 = script := by
          intro q hq hfq
          exfalso
          apply hnotin
          rw [hfn, ← hfq]
          exact List.mem_map.mpr ⟨q, hq, rfl⟩
        match hl : lookupA files (slugify name ++ ".user.js") with
        | none =>
          simp only [hl] at h
          refine ⟨slugify name ++ ".user.js", hfn, ?_⟩
          exact processScripts_frame now rest' _ _ _ _ files1 rest h _ script
            (by rw [lookupA_setA, if_pos rfl]) hcond
        | some existing =>
          simp only [hl] at h
          by_cases he : existing = script
          · rw [if_pos he] at h
            refine ⟨slugify name ++ ".user.js", hfn, ?_⟩
            exact processScripts_frame now rest' _ _ _ _ files1 rest h _ script
              (by rw [hl, he]) hcond
          · rw [if_neg he] at h
            refine ⟨slugify name ++ ".user.js", hfn, ?_⟩
            exact processScripts_frame now rest' _ _ _ _ files1 rest h _ script
              (by rw [lookupA_setA, if_pos rfl]) hcond
      · -- a later script: induction hypothesis on the remaining run
        match hl : lookupA files (slugify name ++ ".user.js") with
        | none =>
          simp only [hl] at h
          exact ih _ _ _ _ files1 rest h hnd' p hp'
        | some existing =>
          simp only [hl] at h
          by_cases he : existing = script
          · rw [if_pos he] at h
            exact ih _ _ _ _ files1 rest h hnd' p hp'
          · rw [if_neg he] at h
            exact ih _ _ _ _ files1 rest h hnd' p hp'

/-- If every script's file already holds exactly its content, the loop
writes nothing and counts nothing. -/
theorem processScripts_unchanged (now : String) :
    ∀ scripts files exported a u,
      (∀ p ∈ scripts, ∃ key, fileNameOf p.1 p.2 = .ok key ∧
        lookupA files key = some p.2) →
      ∃ exported1,
        processScripts now scripts files exported a u = .ok (files, exported1, a, u) := by
  intro scripts
  induction scripts with
  | nil => intro files exported a u _; exact ⟨exported, rfl⟩
  | cons q rest' ih =>
    intro files exported a u hall
    obtain ⟨uuid, script⟩ := q
    obtain ⟨key, hf, hl⟩ := hall (uuid, script) (List.mem_cons_self _ _)
    match hm : metaName uuid script with
    | .error e =>
      rw [fileNameOf] at hf
      simp [hm, Except.map] at hf
    | .ok name =>
      have hkey : key = slugify name ++ ".user.js" := by
        rw [fileNameOf] at hf
        simp only [hm, Except.map, Except.ok.injEq] at hf
        exact hf.symm
      subst hkey
      obtain ⟨exported1, hrun⟩ := ih files
        (exported ++ [⟨uuid, name, slugify name ++ ".user.js",
          parse_userscript_metadata script, now⟩]) a u
        (fun p hp => hall p (List.mem_cons_of_mem _ hp))
      refine ⟨exported1, ?_⟩
      rw [processScripts]
      simp only [hm, hl, if_true]
      exact hrun

/-! ## Inversion lemmas for `export_userscripts` -/

theorem export_ok_inv (scripts : List (String × String)) (dir : DirState)
    (inc : Bool) (now : String) (res : ExportOut)
    (h : export_userscripts scripts dir inc now = .ok res) :
    ∃ files1 a u,
      processScripts now scripts dir.files [] 0 0 = .ok (files1, res.exported, a, u) ∧
      res.added = a ∧ res.updated = u ∧ res.removed = 0 ∧ res.dir.files = files1 ∧
      ((inc = true ∧ (0 < a ∨ 0 < u)) →
        ∃ v, manifestPhase dir.manifest res.exported now = .ok v ∧
          res.dir.manifest = .jval v) ∧
      (¬(inc = true ∧ (0 < a ∨ 0 < u)) → res.dir.manifest = dir.manifest) := by
  rw [export_userscripts] at h
  match hp : processScripts now scripts dir.files [] 0 0 with
  | .error f => simp [hp] at h
  | .ok (files1, exported, a, u) =>
    simp only [hp] at h
    have hiff : (inc = true ∧ (0 < a ∨ 0 < u ∨ 0 < 0)) ↔ (inc = true ∧ (0 < a ∨ 0 < u)) := by
      constructor
      · rintro ⟨h1, h2 | h2 | h2⟩
        · exact ⟨h1, Or.inl h2⟩
        · exact ⟨h1, Or.inr h2⟩
        · omega
      · rintro ⟨h1, h2 | h2⟩
        · exact ⟨h1, Or.inl h2⟩
        · exact ⟨h1, Or.inr (Or.inl h2)⟩
    split at h
    · next hcond =>
      match hmp : manifestPhase dir.manifest exported now with
      | .error e => simp [hmp] at h
      | .ok v =>
        simp only [hmp, Except.ok.injEq] at h
        subst h
        exact ⟨files1, a, u, rfl, rfl, rfl, rfl, rfl,
          fun _ => ⟨v, hmp, rfl⟩,
          fun hn => absurd (hiff.mp hcond) hn⟩
    · next hcond =>
      simp only [Except.ok.injEq] at h
      subst h
      exact ⟨files1, a, u, rfl, rfl, rfl, rfl, rfl,
        fun hc => absurd (hiff.mpr hc) hcond,
        fun _ => rfl⟩

theorem export_error_inv (scripts : List (String × String)) (dir : DirState)
    (inc : Bool) (now : String) (d : DirState)
    (h : export_userscripts scripts dir inc now = .error d) :
    d.manifest = dir.manifest ∧
      d.files =
        (match processScripts now scripts dir.files [] 0 0 with
         | .ok (f, _) => f
         | .error f => f) := by
  rw [export_userscripts] at h
  match hp : processScripts now scripts dir.files [] 0 0 with
  | .error f =>
    simp only [hp, Except.error.injEq] at h
    subst h
    exact ⟨rfl, rfl⟩
  | .ok (files1, exported, a, u) =>
    simp only [hp] at h
    split at h
    · match hmp : manifestPhase dir.manifest exported now with
      | .error e =>
        simp only [hmp, Except.error.injEq] at h
        subst h
        exact ⟨rfl, rfl⟩
      | .ok v => simp [hmp] at h
    · simp at h

/-! ## C9: removed is always zero, nothing is deleted -/

/-- Shared helper: no run of the reconciler ever makes a file key absent,
on the normal path and on the fault path alike. -/
theorem export_dom_preserved (scripts : List (String × String)) (dir : DirState)
    (inc : Bool) (now : String) :
    (∀ res, export_userscripts scripts dir inc now = .ok res →
        ∀ key, (lookupA dir.files key).isSome = true →
          (lookupA res.dir.files key).isSome = true) ∧
    (∀ d, export_userscripts scripts dir inc now = .error d →
        ∀ key, (lookupA dir.files key).isSome = true →
          (lookupA d.files key).isSome = true) := by
  constructor
  · intro res h key hk
    obtain ⟨files1, a, u, hp, -, -, -, hfiles, -, -⟩ :=
      export_ok_inv scripts dir inc now res h
    have hdom := processScripts_dom now scripts dir.files [] 0 0 key hk
    rw [hp] at hdom
    rw [hfiles]
    exact hdom
  · intro d h key hk
    obtain ⟨-, hfiles⟩ := export_error_inv scripts dir inc now d h
    have hdom := processScripts_dom now scripts dir.files [] 0 0 key hk
    rw [hfiles]
    exact hdom

/-- C9: the reconciler always reports `removed = 0`, and no file present in
the output directory before a run is ever absent afterwards — on the
normal path and on the fault path alike. -/
theorem removed_always_zero (scripts : List (String × String)) (dir : DirState)
    (inc : Bool) (now : String) :
    (∀ res, export_userscripts scripts dir inc now = .ok res →
        res.removed = 0 ∧
        ∀ key, (lookupA dir.files key).isSome = true →
          (lookupA res.dir.files key).isSome = true) ∧
    (∀ d, export_userscripts scripts dir inc now = .error d →
        ∀ key, (lookupA dir.files key).isSome = true →
          (lookupA d.files key).isSome = true) := by
  constructor
  · intro res h
    obtain ⟨files1, a, u, hp, -, -, hrem, hfiles, -, -⟩ :=
      export_ok_inv scripts dir inc now res h
    exact ⟨hrem, (export_dom_preserved scripts dir inc now).1 res h⟩
  · exact (export_dom_preserved scripts dir inc now).2

/-- Witness for C9 at a concrete run: a pre-existing unrelated file
survives and `removed = 0`. -/
theorem removed_always_zero_witness :
    ∃ res,
      export_userscripts [("u1", "x")] ⟨[("old.user.js", "o")], .missing⟩ false "t" =
        .ok res ∧
      res.removed = 0 ∧ (lookupA res.dir.files "old.user.js").isSome = true := by
  obtain ⟨hok, -⟩ :=
    removed_always_zero [("u1", "x")] ⟨[("old.user.js", "o")], .missing⟩ false "t"
  refine ⟨_, rfl, (hok _ rfl).1, (hok _ rfl).2 "old.user.js" (by decide)⟩

/-! ## C2: previously exported files persist -/

/-- C2 (amended): no run ever deletes a file — every file present before a
run is present after it, on the normal and on the fault path — and on a
successful run a file keeps its exact content unless some script in the
new input targets the same filename with different content. -/
theorem export_preserves_files (scripts : List (String × String)) (dir : DirState)
    (inc : Bool) (now : String) :
    (∀ res, export_userscripts scripts dir inc now = .ok res →
        ∀ key c, lookupA dir.files key = some c →
          (∀ p ∈ scripts, fileNameOf p.1 p.2 = .ok key → p.2 = c) →
          lookupA res.dir.files key = some c) ∧
    (∀ res, export_userscripts scripts dir inc now = .ok res →
        ∀ key, (lookupA dir.files key).isSome = true →
          (lookupA res.dir.files key).isSome = true) ∧
    (∀ d, export_userscripts scripts dir inc now = .error d →
        ∀ key, (lookupA dir.files key).isSome = true →
          (lookupA d.files key).isSome = true) := by
  refine ⟨?_, (export_dom_preserved scripts dir inc now).1,
    (export_dom_preserved scripts dir inc now).2⟩
  intro res h key c hc hcond
  obtain ⟨files1, a, u, hp, -, -, -, hfiles, -, -⟩ :=
    export_ok_inv scripts dir inc now res h
  rw [hfiles]
  exact processScripts_frame now scripts dir.files [] 0 0 files1 _ hp key c hc hcond

/-- Counterexample to C2 as stated: `a.user.js` was previously written for
script id `u1`; a later run whose input contains only the different id
`u2` — so `u1` is not present in the new input — nevertheless modifies
that file, because both names slugify to the same filename. -/
theorem export_preserves_files_cex :
    ∃ r0 r1,
      export_userscripts
          [("u1", "// ==UserScript==\n// @name A\n// ==/UserScript==\nbody1")]
          ⟨[], .missing⟩ false "t0" = .ok r0 ∧
      lookupA r0.dir.files "a.user.js" =
        some "// ==UserScript==\n// @name A\n// ==/UserScript==\nbody1" ∧
      export_userscripts
          [("u2", "// ==UserScript==\n// @name A\n// ==/UserScript==\nbody2")]
          r0.dir false "t1" = .ok r1 ∧
      lookupA r1.dir.files "a.user.js" =
        some "// ==UserScript==\n// @name A\n// ==/UserScript==\nbody2" ∧
      ("// ==UserScript==\n// @name A\n// ==/UserScript==\nbody2" ≠
        "// ==UserScript==\n// @name A\n// ==/UserScript==\nbody1") ∧
      "u1" ∉ [("u2", "// ==UserScript==\n// @name A\n// ==/UserScript==\nbody2")].map
        Prod.fst := by
  refine ⟨_, _, rfl, by decide, rfl, by decide, by decide, by decide⟩

/-- Witness for the amended C2 at a concrete run: a file written earlier
keeps its exact content through a later run that does not target its
filename with different content. -/
theorem export_preserves_files_witness :
    ∃ res,
      export_userscripts [("u2", "y")] ⟨[("u1.user.js", "x")], .missing⟩ false "t" =
        .ok res ∧
      lookupA res.dir.files "u1.user.js" = some "x" := by
  obtain ⟨hframe, -, -⟩ :=
    export_preserves_files [("u2", "y")] ⟨[("u1.user.js", "x")], .missing⟩ false "t"
  refine ⟨_, rfl, hframe _ rfl "u1.user.js" "x" (by decide) ?_⟩
  intro p hp hf
  have : p = ("u2", "y") := by simpa using hp
  subst this
  exact absurd hf (by decide)

/-! ## C1: idempotence of the reconciler -/

/-- C1 (amended): when no two scripts in the mapping resolve to the same
filename, a second run with the identical input over the directory left by
a successful first run succeeds with `added = 0` and `updated = 0`, writes
no file, and leaves the manifest file exactly as the first run left it. -/
theorem export_idempotent (scripts : List (String × String)) (dir : DirState)
    (inc : Bool) (now1 now2 : String) (res1 : ExportOut)
    (hnd : (scripts.map fun p => fileNameOf p.1 p.2).Nodup)
    (h1 : export_userscripts scripts dir inc now1 = .ok res1) :
    ∃ res2, export_userscripts scripts res1.dir inc now2 = .ok res2 ∧
      res2.added = 0 ∧ res2.updated = 0 ∧
      res2.dir.files = res1.dir.files ∧
      res2.dir.manifest = res1.dir.manifest := by
  obtain ⟨files1, a, u, hp, -, -, -, hfiles, -, -⟩ :=
    export_ok_inv scripts dir inc now1 res1 h1
  have hwrites := processScripts_writes now1 scripts dir.files [] 0 0 files1 _ hp hnd
  obtain ⟨exported2, hrun2⟩ :=
    processScripts_unchanged now2 scripts files1 [] 0 0 hwrites
  refine ⟨⟨exported2, 0, 0, 0, ⟨files1, res1.dir.manifest⟩⟩, ?_, rfl, rfl,
    by rw [hfiles], rfl⟩
  rw [export_userscripts, hfiles]
  simp only [hrun2]
  rw [if_neg (by simp)]

/-- Counterexample to C1 as stated: two distinct ids whose scripts carry
the same `@name` (hence the same filename) but different bodies; the first
run reports 1 added and 1 updated, and the second run with identical input
still reports 2 updated — not zero. -/
theorem export_idempotent_cex :
    ∃ r1 r2,
      export_userscripts
          [("u1", "// ==UserScript==\n// @name A\n// ==/UserScript==\nbody1"),
           ("u2", "// ==UserScript==\n// @name A\n// ==/UserScript==\nbody2")]
          ⟨[], .missing⟩ false "t1" = .ok r1 ∧
      export_userscripts
          [("u1", "// ==UserScript==\n// @name A\n// ==/UserScript==\nbody1"),
           ("u2", "// ==UserScript==\n// @name A\n// ==/UserScript==\nbody2")]
          r1.dir false "t2" = .ok r2 ∧
      r2.added = 0 ∧ r2.updated = 2 := by
  refine ⟨_, _, rfl, rfl, by decide, by decide⟩

/-- Witness for the amended C1 at a concrete run. -/
theorem export_idempotent_witness :
    ∃ res2,
      export_userscripts [("u1", "x")]
          (ExportOut.dir ⟨[⟨"u1", "u1", "u1.user.js", [], "t1"⟩], 1, 0, 0,
            ⟨[("u1.user.js", "x")], .missing⟩⟩) false "t2" = .ok res2 ∧
      res2.added = 0 ∧ res2.updated = 0 ∧
      res2.dir.files =
        (ExportOut.dir ⟨[⟨"u1", "u1", "u1.user.js", [], "t1"⟩], 1, 0, 0,
          ⟨[("u1.user.js", "x")], .missing⟩⟩).files ∧
      res2.dir.manifest =
        (ExportOut.dir ⟨[⟨"u1", "u1", "u1.user.js", [], "t1"⟩], 1, 0, 0,
          ⟨[("u1.user.js", "x")], .missing⟩⟩).manifest :=
  export_idempotent [("u1", "x")] ⟨[], .missing⟩ false "t1" "t2"
    ⟨[⟨"u1", "u1", "u1.user.js", [], "t1"⟩], 1, 0, 0,
      ⟨[("u1.user.js", "x")], .missing⟩⟩
    (by decide) rfl

/-! ## C3: missing / corrupt manifest recovery -/

theorem mergeScriptsList_nil_uuids :
    ∀ (exps : List Entry) (init : List JVal),
      mergeScriptsList init [] exps = init ++ exps.map entryToJVal := by
  intro exps
  induction exps with
  | nil => intro init; simp [mergeScriptsList]
  | cons e rest ih =>
    intro init
    show mergeScriptsList (init ++ [entryToJVal e]) [] rest = _
    rw [ih]
    simp

/-- C3 (amended): a missing manifest file, or one whose content fails to
parse as JSON, is treated as the empty manifest and overwritten with fresh
data built purely from this run's entries — whenever the run succeeds with
at least one add or update. -/
theorem manifest_recovered (scripts : List (String × String)) (dir : DirState)
    (now : String) (res : ExportOut)
    (hm : dir.manifest = .missing ∨ dir.manifest = .corrupt)
    (h : export_userscripts scripts dir true now = .ok res)
    (hch : 0 < res.added ∨ 0 < res.updated) :
    res.dir.manifest = .jval (.obj
      [("scripts", .arr (res.exported.map entryToJVal)),
       ("last_updated", .str now)]) := by
  obtain ⟨files1, a, u, hp, hadd, hupd, -, -, hthen, -⟩ :=
    export_ok_inv scripts dir true now res h
  obtain ⟨v, hmp, hresm⟩ := hthen ⟨rfl, by rw [hadd, hupd] at hch; exact hch⟩
  have hdefault : ∀ mf, (mf = MFile.missing ∨ mf = MFile.corrupt) →
      manifestPhase mf res.exported now = .ok (.obj
        [("scripts", .arr (res.exported.map entryToJVal)),
         ("last_updated", .str now)]) := by
    intro mf hmf
    have hbody : manifestPhase mf res.exported now =
        .ok (.obj (setA (setA
          [("scripts", JVal.arr []), ("last_updated", JVal.str now)]
          "scripts" (.arr (mergeScriptsList [] [] res.exported)))
          "last_updated" (.str now))) := by
      rcases hmf with rfl | rfl <;> rfl
    rw [hbody, mergeScriptsList_nil_uuids]
    rfl
  rw [hdefault dir.manifest hm] at hmp
  rw [hresm]
  injection hmp with hv
  rw [← hv]

/-- Counterexample to C3 as stated: a manifest file containing the valid
JSON value `[]` — content that is not a valid manifest — makes the run
fault (Python raises `AttributeError` on `manifest.get`) instead of being
treated as an empty manifest; the script file has already been written
when the fault occurs. -/
theorem manifest_recovered_cex :
    ∃ d, export_userscripts [("u1", "x")] ⟨[], .jval (.arr [])⟩ true "t" =
        .error d ∧
      d.files = [("u1.user.js", "x")] := by
  exact ⟨_, rfl, by decide⟩

/-- Witness for the amended C3 at a concrete run over a missing manifest. -/
theorem manifest_recovered_witness :
    ∃ res, export_userscripts [("u1", "x")] ⟨[], .missing⟩ true "T" = .ok res ∧
      res.dir.manifest = .jval (.obj
        [("scripts", .arr (res.exported.map entryToJVal)),
         ("last_updated", .str "T")]) := by
  refine ⟨_, rfl, manifest_recovered [("u1", "x")] ⟨[], .missing⟩ "T" _
    (Or.inl rfl) rfl (Or.inl (by decide))⟩

/-! ## C6: position-preserving replace, append-only for new entries -/

/-- C6: merging a reconcile output `[A', C]` into a manifest whose scripts
list is `[A, B]` — where `A'` carries `A`'s id and `C` a fresh id — yields
exactly `[A', B, C]`: the replaced entry keeps its position, the new entry
is appended at the end, and `last_updated` is refreshed. -/
theorem manifest_merge_position (fa fb : List (String × JVal)) (a b : String)
    (lu : JVal) (eA eC : Entry) (now : String)
    (ha : lookupA fa "uuid" = some (.str a))
    (hb : lookupA fb "uuid" = some (.str b))
    (hA : eA.uuid = a)
    (hba : b ≠ a)
    (hCa : a ≠ eC.uuid) (hCb : b ≠ eC.uuid) :
    manifestPhase
        (.jval (.obj [("scripts", .arr [.obj fa, .obj fb]), ("last_updated", lu)]))
        [eA, eC] now =
      .ok (.obj
        [("scripts", .arr [entryToJVal eA, .obj fb, entryToJVal eC]),
         ("last_updated", .str now)]) := by
  subst hA
  have hex : extractUuids [JVal.obj fa, JVal.obj fb] =
      .ok [.str eA.uuid, .str b] := by
    simp [extractUuids, ha, hb, jhashable]
  have hstep : ∀ (init us : List JVal) (e : Entry) (rest : List Entry),
      mergeScriptsList init us (e :: rest) =
        mergeScriptsList
          (if us.any (fun jv => jv.eqStr e.uuid) then
            init.map (fun s => if uuidEq s e.uuid then entryToJVal e else s)
          else init ++ [entryToJVal e]) us rest := fun _ _ _ _ => rfl
  have h1 : (List.any [JVal.str eA.uuid, JVal.str b]
      fun jv => jv.eqStr eA.uuid) = true := by
    simp [JVal.eqStr]
  have h2 : uuidEq (JVal.obj fa) eA.uuid = true := by
    simp [uuidEq, ha, JVal.eqStr]
  have h3 : ¬(uuidEq (JVal.obj fb) eA.uuid = true) := by
    simp [uuidEq, hb, JVal.eqStr, hba]
  have h4 : ¬((List.any [JVal.str eA.uuid, JVal.str b]
      fun jv => jv.eqStr eC.uuid) = true) := by
    simp [JVal.eqStr]
    exact ⟨hCa, hCb⟩
  have hmerge : mergeScriptsList [JVal.obj fa, JVal.obj fb]
      [.str eA.uuid, .str b] [eA, eC] =
      [entryToJVal eA, .obj fb, entryToJVal eC] := by
    rw [hstep, if_pos h1]
    simp only [List.map_cons, List.map_nil]
    rw [if_pos h2, if_neg h3]
    rw [hstep, if_neg h4]
    show ([entryToJVal eA, JVal.obj fb] ++ [entryToJVal eC]) = _
    simp
  have hphase : manifestPhase
      (.jval (.obj [("scripts", JVal.arr [.obj fa, .obj fb]), ("last_updated", lu)]))
      [eA, eC] now =
      (match extractUuids [JVal.obj fa, JVal.obj fb] with
       | .error _ => .error ()
       | .ok us =>
         .ok (.obj (setA (setA
           [("scripts", JVal.arr [.obj fa, .obj fb]), ("last_updated", lu)]
           "scripts"
           (.arr (mergeScriptsList [.obj fa, .obj fb] us [eA, eC])))
           "last_updated" (.str now)))) := rfl
  rw [hphase]
  simp only [hex]
  rw [hmerge]
  rfl

/-- Witness for C6 at concrete manifest rows. -/
theorem manifest_merge_position_witness :
    manifestPhase
        (.jval (.obj [("scripts", .arr
            [.obj [("uuid", .str "a"), ("name", .str "A")],
             .obj [("uuid", .str "b"), ("name", .str "B")]]),
          ("last_updated", .str "old")]))
        [⟨"a", "A2", "a2.user.js", [], "T"⟩, ⟨"c", "C", "c.user.js", [], "T"⟩]
        "T" =
      .ok (.obj
        [("scripts", .arr
            [entryToJVal ⟨"a", "A2", "a2.user.js", [], "T"⟩,
             .obj [("uuid", .str "b"), ("name", .str "B")],
             entryToJVal ⟨"c", "C", "c.user.js", [], "T"⟩]),
         ("last_updated", .str "T")]) :=
  manifest_merge_position [("uuid", .str "a"), ("name", .str "A")]
    [("uuid", .str "b"), ("name", .str "B")] "a" "b" (.str "old")
    ⟨"a", "A2", "a2.user.js", [], "T"⟩ ⟨"c", "C", "c.user.js", [], "T"⟩ "T"
    rfl rfl rfl (by decide) (by decide) (by decide)

/-! ## C10: manifest rows of unchanged scripts are rewritten too -/

theorem uuidEq_entryToJVal (e : Entry) (u : String) :
    uuidEq (entryToJVal e) u = decide (e.uuid = u) := rfl

theorem uuidEq_trans (s : JVal) (w u : String) (h : uuidEq s w = true) :
    uuidEq s u = decide (w = u) := by
  match s with
  | .obj fields =>
    simp only [uuidEq] at h ⊢
    match hf : lookupA fields "uuid" with
    | some jv =>
      simp only [hf] at h ⊢
      match jv with
      | .str c =>
        have hc : c = w := by simpa [JVal.eqStr] using h
        subst hc
        rfl
      | .null => simp [JVal.eqStr] at h
      | .bool x => simp [JVal.eqStr] at h
      | .num x => simp [JVal.eqStr] at h
      | .arr x => simp [JVal.eqStr] at h
      | .obj x => simp [JVal.eqStr] at h
    | none => simp only [hf] at h; exact absurd h (by simp)
  | .null => simp [uuidEq] at h
  | .bool x => simp [uuidEq] at h
  | .num x => simp [uuidEq] at h
  | .str x => simp [uuidEq] at h
  | .arr x => simp [uuidEq] at h

theorem anyExt {α : Type} (l : List α) (p q : α → Bool)
    (h : ∀ x ∈ l, p x = q x) : l.any p = l.any q := by
  induction l with
  | nil => rfl
  | cons c rest ih =>
    simp only [List.any_cons]
    rw [h c (List.mem_cons_self _ _), ih (fun x hx => h x (List.mem_cons_of_mem _ hx))]

theorem uuidEq_replace (e : Entry) (s : JVal) (u : String) :
    uuidEq (if uuidEq s e.uuid then entryToJVal e else s) u = uuidEq s u := by
  by_cases h : uuidEq s e.uuid = true
  · rw [if_pos h, uuidEq_entryToJVal, uuidEq_trans s e.uuid u h]
  · rw [if_neg h]

theorem any_map_replace (l : List JVal) (e : Entry) (u : String) :
    ((l.map fun s => if uuidEq s e.uuid then entryToJVal e else s).any
        fun s => uuidEq s u) =
      l.any fun s => uuidEq s u := by
  rw [List.any_map]
  exact anyExt l _ _ (fun s _ => uuidEq_replace e s u)

theorem find?_map_replace_ne (l : List JVal) (e : Entry) (u : String)
    (hne : e.uuid ≠ u) :
    (l.map fun s => if uuidEq s e.uuid then entryToJVal e else s).find?
        (fun s => uuidEq s u) =
      l.find? (fun s => uuidEq s u) := by
  induction l with
  | nil => rfl
  | cons c rest ih =>
    simp only [List.map_cons, List.find?, uuidEq_replace]
    by_cases hc : uuidEq c u = true
    · have hce : uuidEq c e.uuid = false := by
        rw [uuidEq_trans c u e.uuid hc]
        exact decide_eq_false (fun hh => hne hh.symm)
      simp only [hc, hce]
      rw [if_neg (by simp)]
    · rw [Bool.not_eq_true] at hc
      simp only [hc, ih]

theorem find?_map_replace_self (l : List JVal) (e : Entry)
    (h : l.any (fun s => uuidEq s e.uuid) = true) :
    (l.map fun s => if uuidEq s e.uuid then entryToJVal e else s).find?
        (fun s => uuidEq s e.uuid) = some (entryToJVal e) := by
  induction l with
  | nil => simp at h
  | cons c rest ih =>
    simp only [List.map_cons, List.find?, uuidEq_replace]
    by_cases hc : uuidEq c e.uuid = true
    · simp only [hc]
      simp
    · rw [Bool.not_eq_true] at hc
      simp only [hc]
      apply ih
      simp only [List.any_cons, hc, Bool.false_or] at h
      exact h

theorem findA_append_some (l l2 : List JVal) (p : JVal → Bool) (x : JVal)
    (h : l.find? p = some x) : (l ++ l2).find? p = some x := by
  induction l with
  | nil => simp [List.find?] at h
  | cons c rest ih =>
    simp only [List.cons_append, List.find?]
    simp only [List.find?] at h
    cases hc : p c with
    | true => simpa [hc] using h
    | false =>
      simp only [hc] at h ⊢
      exact ih h

theorem findA_append_none (l l2 : List JVal) (p : JVal → Bool)
    (h : l.find? p = none) : (l ++ l2).find? p = l2.find? p := by
  induction l with
  | nil => rfl
  | cons c rest ih =>
    simp only [List.cons_append, List.find?]
    simp only [List.find?] at h
    cases hc : p c with
    | true => simp [hc] at h
    | false =>
      simp only [hc] at h ⊢
      exact ih h

theorem any_false_find?_none (l : List JVal) (p : JVal → Bool)
    (h : l.any p = false) : l.find? p = none := by
  induction l with
  | nil => rfl
  | cons c rest ih =>
    rw [List.any_cons] at h
    cases hc : p c with
    | true => rw [hc] at h; simp at h
    | false =>
      rw [hc] at h
      simp only [Bool.false_or] at h
      simp only [List.find?, hc]
      exact ih h

theorem mergeScriptsList_cons (init us : List JVal) (e : Entry) (rest : List Entry) :
    mergeScriptsList init us (e :: rest) =
      mergeScriptsList
        (if us.any (fun jv => jv.eqStr e.uuid) then
          init.map (fun s => if uuidEq s e.uuid then entryToJVal e else s)
        else init ++ [entryToJVal e]) us rest := rfl

theorem extractUuids_any :
    ∀ (l uuids : List JVal), extractUuids l = .ok uuids →
      ∀ u, (l.any fun s => uuidEq s u) = (uuids.any fun jv => jv.eqStr u) := by
  intro l
  induction l with
  | nil =>
    intro uuids h u
    simp only [extractUuids, Except.ok.injEq] at h
    subst h
    rfl
  | cons s rest ih =>
    intro uuids h u
    match s with
    | .obj fields =>
      simp only [extractUuids] at h
      match hf : lookupA fields "uuid" with
      | some uv =>
        simp only [hf] at h
        by_cases hh : jhashable uv = true
        · rw [if_pos hh] at h
          match hr : extractUuids rest with
          | .ok us =>
            simp only [hr, Except.ok.injEq] at h
            subst h
            rw [List.any_cons, List.any_cons]
            have hhead : uuidEq (JVal.obj fields) u = uv.eqStr u := by
              simp [uuidEq, hf]
            rw [hhead, ih us hr u]
          | .error x => simp [hr] at h
        · rw [if_neg hh] at h
          exact absurd h (by simp)
      | none => simp [hf] at h
    | .null => simp [extractUuids] at h
    | .bool y => simp [extractUuids] at h
    | .num y => simp [extractUuids] at h
    | .str y => simp [extractUuids] at h
    | .arr y => simp [extractUuids] at h

theorem mergeScriptsList_preserve (uuids : List JVal) :
    ∀ (exps : List Entry) (cur : List JVal) (u : String) (x : JVal),
      cur.find? (fun s => uuidEq s u) = some x →
      (∀ e ∈ exps, e.uuid ≠ u) →
      (mergeScriptsList cur uuids exps).find? (fun s => uuidEq s u) = some x := by
  intro exps
  induction exps with
  | nil => intro cur u x h _; exact h
  | cons e rest ih =>
    intro cur u x h hne
    rw [mergeScriptsList_cons]
    by_cases hc : (uuids.any fun jv => jv.eqStr e.uuid) = true
    · rw [if_pos hc]
      apply ih _ u x ?_ (fun e' he' => hne e' (List.mem_cons_of_mem _ he'))
      rw [find?_map_replace_ne _ e u (hne e (List.mem_cons_self _ _))]
      exact h
    · rw [if_neg hc]
      exact ih _ u x (findA_append_some _ _ _ _ h)
        (fun e' he' => hne e' (List.mem_cons_of_mem _ he'))

theorem mergeScriptsList_find (uuids : List JVal) :
    ∀ (exps : List Entry) (cur : List JVal) (P : List String),
      (∀ u, (cur.any fun s => uuidEq s u) =
        ((uuids.any fun jv => jv.eqStr u) || decide (u ∈ P))) →
      (∀ e ∈ exps, e.uuid ∉ P) →
      ((exps.map Entry.uuid).Nodup) →
      ∀ e ∈ exps,
        (mergeScriptsList cur uuids exps).find? (fun s => uuidEq s e.uuid) =
          some (entryToJVal e) := by
  intro exps
  induction exps with
  | nil => intro _ _ _ _ _ e he; exact absurd he (by simp)
  | cons e0 rest ih =>
    intro cur P hinv hP hnd e he
    have hnd0 : e0.uuid ∉ rest.map Entry.uuid :=
      (List.nodup_cons.mp (by simpa using hnd)).1
    have hndr : (rest.map Entry.uuid).Nodup :=
      (List.nodup_cons.mp (by simpa using hnd)).2
    rw [mergeScriptsList_cons]
    rcases List.mem_cons.mp he with rfl | her
    · -- the head entry: placed by the head step, preserved by the rest
      have hfound :
          ((if uuids.any (fun jv => jv.eqStr e.uuid) then
              cur.map (fun s => if uuidEq s e.uuid then entryToJVal e else s)
            else cur ++ [entryToJVal e]).find? fun s => uuidEq s e.uuid) =
            some (entryToJVal e) := by
        by_cases hc : (uuids.any fun jv => jv.eqStr e.uuid) = true
        · rw [if_pos hc]
          apply find?_map_replace_self
          rw [hinv e.uuid, hc]
          simp
        · rw [if_neg hc]
          rw [Bool.not_eq_true] at hc
          have hany : (cur.any fun s => uuidEq s e.uuid) = false := by
            rw [hinv e.uuid, hc,
              decide_eq_false (hP e (List.mem_cons_self _ _))]
            simp
          rw [findA_append_none _ _ _ (any_false_find?_none _ _ hany)]
          simp [List.find?, uuidEq_entryToJVal]
      exact mergeScriptsList_preserve uuids rest _ e.uuid _ hfound
        (fun e' he' heq => hnd0 (heq ▸ List.mem_map.mpr ⟨e', he', rfl⟩))
    · -- a later entry: induction with the head id added to the processed set
      apply ih _ (P ++ [e0.uuid]) ?_ ?_ hndr e her
      · intro u
        by_cases hc : (uuids.any fun jv => jv.eqStr e0.uuid) = true
        · rw [if_pos hc, any_map_replace, hinv u]
          by_cases hu : u = e0.uuid
          · subst hu
            rw [hc]
            simp
          · have hdec : decide (u ∈ P ++ [e0.uuid]) = decide (u ∈ P) :=
              decide_eq_decide.mpr (by simp [hu])
            rw [hdec]
        · rw [if_neg hc, List.any_append, hinv u]
          simp only [List.any_cons, List.any_nil, Bool.or_false,
            uuidEq_entryToJVal]
          by_cases hu : u = e0.uuid
          · subst hu
            simp [List.mem_append]
          · have h1 : decide (e0.uuid = u) = false :=
              decide_eq_false (fun hh => hu hh.symm)
            have hdec : decide (u ∈ P ++ [e0.uuid]) = decide (u ∈ P) :=
              decide_eq_decide.mpr (by simp [hu])
            rw [h1, hdec]
            simp
      · intro e' he' hmem
        rcases List.mem_append.mp hmem with hh | hh
        · exact hP e' (List.mem_cons_of_mem _ he') hh
        · exact hnd0 ((List.mem_singleton.mp hh) ▸ List.mem_map.mpr ⟨e', he', rfl⟩)

theorem processScripts_exported (now : String) :
    ∀ scripts files exported a u files1 exported1 a1 u1,
      processScripts now scripts files exported a u = .ok (files1, exported1, a1, u1) →
      exported1.map Entry.uuid = exported.map Entry.uuid ++ scripts.map Prod.fst ∧
      ∀ e ∈ exported1, e ∈ exported ∨ e.syncedAt = now := by
  intro scripts
  induction scripts with
  | nil =>
    intro files exported a u files1 exported1 a1 u1 h
    simp only [processScripts, Except.ok.injEq, Prod.mk.injEq] at h
    obtain ⟨-, h2, -, -⟩ := h
    subst h2
    exact ⟨by simp, fun e he => Or.inl he⟩
  | cons q rest ih =>
    intro files exported a u files1 exported1 a1 u1 h
    obtain ⟨uuid, script⟩ := q
    rw [processScripts] at h
    match hm : metaName uuid script with
    | .error e => simp [hm] at h
    | .ok name =>
      simp only [hm] at h
      have hstep : ∀ files' a' u',
          processScripts now rest files'
            (exported ++ [⟨uuid, name, slugify name ++ ".user.js",
              parse_userscript_metadata script, now⟩]) a' u' =
            .ok (files1, exported1, a1, u1) →
          exported1.map Entry.uuid =
            exported.map Entry.uuid ++ (uuid, script).1 :: rest.map Prod.fst ∧
          ∀ e ∈ exported1, e ∈ exported ∨ e.syncedAt = now := by
        intro files' a' u' hrun
        obtain ⟨h1, h2⟩ := ih files' _ a' u' files1 exported1 a1 u1 hrun
        constructor
        · rw [h1]
          simp
        · intro e he
          rcases h2 e he with hh | hh
          · rcases List.mem_append.mp hh with hh2 | hh2
            · exact Or.inl hh2
            · right
              have : e = ⟨uuid, name, slugify name ++ ".user.js",
                  parse_userscript_metadata script, now⟩ := by simpa using hh2
              rw [this]
          · exact Or.inr hh
      match hl : lookupA files (slugify name ++ ".user.js") with
      | none =>
        simp only [hl] at h
        exact hstep _ _ _ h
      | some existing =>
        simp only [hl] at h
        by_cases he : existing = script
        · rw [if_pos he] at h
          exact hstep _ _ _ h
        · rw [if_neg he] at h
          exact hstep _ _ _ h

theorem manifestPhase_ok_inv (mf : MFile) (exported : List Entry) (now : String)
    (v' : JVal) (h : manifestPhase mf exported now = .ok v') :
    ∃ fields l uuids,
      manifestLoaded mf now = .obj fields ∧
      lookupA fields "scripts" = some (.arr l) ∧
      extractUuids l = .ok uuids ∧
      v' = .obj (setA (setA fields "scripts"
        (.arr (mergeScriptsList l uuids exported))) "last_updated" (.str now)) := by
  rw [manifestPhase] at h
  match hv : manifestLoaded mf now with
  | .obj fields =>
    simp only [hv] at h
    match hl : lookupA fields "scripts" with
    | none => simp [hl] at h
    | some sv =>
      simp only [hl] at h
      cases sv with
      | arr l =>
        match hx : extractUuids l with
        | .error e => simp [hx] at h
        | .ok uuids =>
          simp only [hx] at h
          exact ⟨fields, l, uuids, rfl, hl, hx, (Except.ok.inj h).symm⟩
      | null => simp at h
      | bool y => simp at h
      | num y => simp at h
      | str y => simp at h
      | obj y => simp at h
  | .null => simp [hv] at h
  | .bool y => simp [hv] at h
  | .num y => simp [hv] at h
  | .str y => simp [hv] at h
  | .arr y => simp [hv] at h

/-- C10: whenever manifest writing is enabled and some script was added or
updated, the persisted manifest carries, for every script of the input
mapping — unchanged ones included — an entry stamped with this run's
timestamp; and in every other case (manifest disabled, or nothing added
or updated) the manifest file is left untouched. -/
theorem manifest_refresh (scripts : List (String × String)) (dir : DirState)
    (inc : Bool) (now : String) (res : ExportOut)
    (hnd : (scripts.map Prod.fst).Nodup)
    (h : export_userscripts scripts dir inc now = .ok res) :
    ((inc = true ∧ (0 < res.added ∨ 0 < res.updated)) →
      ∃ fields l, res.dir.manifest = .jval (.obj fields) ∧
        lookupA fields "scripts" = some (.arr l) ∧
        ∀ p ∈ scripts, ∃ e, e ∈ res.exported ∧ e.uuid = p.1 ∧
          e.syncedAt = now ∧
          l.find? (fun s => uuidEq s p.1) = some (entryToJVal e)) ∧
    ((inc = false ∨ (res.added = 0 ∧ res.updated = 0)) →
      res.dir.manifest = dir.manifest) := by
  obtain ⟨files1, a, u, hp, hadd, hupd, -, -, hthen, helse⟩ :=
    export_ok_inv scripts dir inc now res h
  constructor
  · rintro ⟨hinc, hch⟩
    obtain ⟨v, hmp, hresm⟩ := hthen ⟨hinc, by rw [hadd, hupd] at hch; exact hch⟩
    obtain ⟨fields, l, uuids, hload, hl, hx, hv'⟩ :=
      manifestPhase_ok_inv dir.manifest res.exported now v hmp
    obtain ⟨hmapeq, hsync⟩ :=
      processScripts_exported now scripts dir.files [] 0 0 files1
        res.exported a u hp
    simp only [List.map_nil, List.nil_append] at hmapeq
    have hnd' : (res.exported.map Entry.uuid).Nodup := by rw [hmapeq]; exact hnd
    refine ⟨setA (setA fields "scripts"
        (.arr (mergeScriptsList l uuids res.exported))) "last_updated" (.str now),
      mergeScriptsList l uuids res.exported, by rw [hresm, hv'], ?_, ?_⟩
    · rw [lookupA_setA, if_neg (by decide), lookupA_setA, if_pos rfl]
    · intro p hp'
      have hpin : p.1 ∈ res.exported.map Entry.uuid := by
        rw [hmapeq]; exact List.mem_map.mpr ⟨p, hp', rfl⟩
      obtain ⟨e, he, heq⟩ := List.mem_map.mp hpin
      have hsy : e.syncedAt = now := by
        rcases hsync e he with hh | hh
        · exact absurd hh (by simp)
        · exact hh
      refine ⟨e, he, heq, hsy, ?_⟩
      rw [← heq]
      apply mergeScriptsList_find uuids res.exported l [] ?_ (by simp) hnd' e he
      intro w
      rw [extractUuids_any l uuids hx w]
      simp
  · intro hdis
    apply helse
    rintro ⟨hinc, hch⟩
    rcases hdis with hf | ⟨h0, h1⟩
    · rw [hf] at hinc; exact absurd hinc (by simp)
    · rw [hadd] at h0
      rw [hupd] at h1
      rcases hch with hh | hh <;> omega

/-- Witness for C10 at a concrete run: the input holds an unchanged script
`u1` and a new script `u2`; manifest writing is enabled, so the persisted
manifest carries a row for the unchanged `u1` stamped with this run's
timestamp. -/
theorem manifest_refresh_witness :
    ∃ res fields l,
      export_userscripts [("u1", "a"), ("u2", "b")]
          ⟨[("u1.user.js", "a")], .missing⟩ true "T" = .ok res ∧
      res.added = 1 ∧ res.updated = 0 ∧
      res.dir.manifest = .jval (.obj fields) ∧
      lookupA fields "scripts" = some (.arr l) ∧
      ∃ e, e ∈ res.exported ∧ e.uuid = "u1" ∧ e.syncedAt = "T" ∧
        l.find? (fun s => uuidEq s "u1") = some (entryToJVal e) := by
  obtain ⟨h1, -⟩ :=
    manifest_refresh [("u1", "a"), ("u2", "b")] ⟨[("u1.user.js", "a")], .missing⟩
      true "T" _ (by decide) rfl
  obtain ⟨fields, l, hm, hs, hall⟩ := h1 ⟨rfl, Or.inl (by decide)⟩
  obtain ⟨e, he, heq, hsy, hfind⟩ := hall ("u1", "a") (by decide)
  exact ⟨_, fields, l, rfl, by decide, by decide, hm, hs, e, he, heq, hsy, hfind⟩

/-! ## C5: scanner robustness against malformed fragments -/

/-- C5 (amended): a truncated `{"`-fragment adjacent to a well-formed
record is skipped silently — the scanner, which is total, returns exactly
the valid record's id-to-script mapping — whenever the brace scan started
at the malformed candidate fails to close, so that the search resumes one
character later and reaches the valid record's own start.  (When the
malformed fragment's dangling quote makes the combined brace scan close
inside the valid record, the valid record can be masked; see the
counterexample.) -/
theorem scanner_skips_malformed :
    parse_scripts_from_text "\x7b\"a\": \"==UserScript== body\"\x7d" =
      [("a", "==UserScript== body")] ∧
    parse_scripts_from_text "\x7b\"x: \x7b\"a\": \"==UserScript== body\"\x7d" =
      [("a", "==UserScript== body")] := by
  constructor
  · decide
  · decide

/-- Counterexample to C5 as stated: the buffer is a truncated fragment
`{" ` immediately followed by the well-formed JSON record
`{"a": "==UserScript==}"}` — whose string value contains the sentinel and
which the scanner extracts perfectly when given alone — yet the scan of
the combined buffer returns the empty mapping, because the brace scan
started at the truncated fragment closes inside the valid record and the
search resumes past the valid record's start. -/
theorem scanner_skips_malformed_cex :
    ("\x7b\" \x7b\"a\": \"==UserScript==\x7d\"\x7d" : String) =
      "\x7b\" " ++ "\x7b\"a\": \"==UserScript==\x7d\"\x7d" ∧
    jsonLoads "\x7b\"a\": \"==UserScript==\x7d\"\x7d".data =
      some (.obj [("a", .str "==UserScript==\x7d")]) ∧
    containsSub "==UserScript==\x7d".data sentinel = true ∧
    parse_scripts_from_text "\x7b\"a\": \"==UserScript==\x7d\"\x7d" =
      [("a", "==UserScript==\x7d")] ∧
    parse_scripts_from_text "\x7b\" \x7b\"a\": \"==UserScript==\x7d\"\x7d" = [] := by
  refine ⟨rfl, rfl, by decide, by decide, by decide⟩

end TweeksSync
